import Mathlib

/-!
Verification of the core analysis of `vispy/cli.py` (class-hierarchy
extraction and sharing analysis).

The Python source is shallowly embedded:
* `PyExpr`, `PyTarget`, `PyStmt`, `ClassNode` model the fragments of the
  Python AST inspected by `HierarchyExtractor`.
* `get_name`, `process_method`, `visit_ClassDef` model the extractor.
  `get_name` returns `Except Unit (Option String)`: `Except.error ()` marks a
  Python `TypeError` (the source computes `self.get_name(node.value) + '.'`,
  which raises when the recursive call returned `None`).
* `get_all_bases`, `collect_inherited_elements` model the inheritance
  resolver.  The Python recursion is modelled with an explicit fuel
  parameter (`goBases`); `fuelBound` is a concrete bound proved large enough
  (theorem for C5), so `get_all_bases` computes the Python result.
* `focus_methods`, `warnings`, `all_focus_methods`, `unique_methods`, … model
  the focus-class analysis in `main` (lines 184-231).  Python dicts become
  association lists, Python sets become lists compared by membership, and a
  Python `KeyError` becomes `Except.error` carrying the missing key.
-/

/-- Python expressions, as far as `HierarchyExtractor.get_name` inspects them:
`ast.Name`, `ast.Attribute`, and every other expression form (`otherE`). -/
inductive PyExpr where
  | name (id : String)
  | attrib (value : PyExpr) (attrName : String)
  | otherE
deriving DecidableEq

/-- Assignment targets: `ast.Name`, `ast.Tuple`, `ast.Attribute`, other. -/
inductive PyTarget where
  | tname (id : String)
  | ttuple (elts : List PyTarget)
  | tattr (value : PyExpr) (attrName : String)
  | totherT

/-- Statements, as far as the extractor inspects them.  `otherS` stands for
any other statement; its `children` are the nested statements that
`ast.walk` would still reach (bodies of `if`/`for`/`while`/…). -/
inductive PyStmt where
  | assign (targets : List PyTarget)
  | annAssign (target : PyTarget)
  | funcDef (fname : String) (fbody : List PyStmt)
  | otherS (children : List PyStmt)

/-- An `ast.ClassDef` node: name, base expressions, body statements. -/
structure ClassNode where
  name : String
  bases : List PyExpr
  body : List PyStmt

/-- The per-class record built by `visit_ClassDef`
(`{'methods': set(), 'variables': set(), 'bases': []}`).  Sets are modelled
as lists compared by membership; `bases` keeps `None` entries as `none`
(the source list comprehension keeps them). -/
structure ClassInfo where
  methods : List String
  vars : List String
  bases : List (Option String)
deriving DecidableEq

/-- `HierarchyExtractor.get_name` (cli.py lines 66-72).
`Except.error ()` models the `TypeError` raised by `None + '.'` when the
recursive call on an `Attribute`'s value returns `None`. -/
def get_name : PyExpr → Except Unit (Option String)
  | .name id => .ok (some id)
  | .attrib v a =>
    match get_name v with
    | .ok (some s) => .ok (some (s ++ "." ++ a))
    | .ok none => .error ()
    | .error e => .error e
  | .otherE => .ok none

/-- The list comprehension `[self.get_name(base) for base in node.bases]`
(line 16): left to right, the first raised error aborts the whole list. -/
def resolveBases : List PyExpr → Except Unit (List (Option String))
  | [] => .ok []
  | e :: rest =>
    match get_name e with
    | .error err => .error err
    | .ok ob =>
      match resolveBases rest with
      | .error err => .error err
      | .ok obs => .ok (ob :: obs)

/-- The dunder filter of line 23:
`method_name.startswith('__') and method_name.endswith('__')`, phrased over
the string's character list (the first two and the last two characters are
underscores) so that it evaluates by kernel reduction. -/
def isDunder (s : String) : Bool :=
  (s.data.take 2 == ['_', '_']) && (s.data.reverse.take 2 == ['_', '_'])

mutual
/-- One step of `ast.walk`: the node itself followed by its descendants. -/
def walkStmt : PyStmt → List PyStmt
  | .assign ts => [.assign ts]
  | .annAssign t => [.annAssign t]
  | .funcDef n b => .funcDef n b :: walkStmtList b
  | .otherS b => .otherS b :: walkStmtList b

/-- `ast.walk` over a statement list (order is irrelevant to the extractor,
which only accumulates into sets). -/
def walkStmtList : List PyStmt → List PyStmt
  | [] => []
  | s :: rest => walkStmt s ++ walkStmtList rest
end

/-- The target test of lines 52-54 and 60-62: an `ast.Attribute` target whose
value is `ast.Name` with id `'self'` contributes its attribute name. -/
def selfAttrOfTarget : PyTarget → Option String
  | .tattr (.name v) a => if v = "self" then some a else none
  | _ => none

/-- `HierarchyExtractor.process_method` (lines 47-64): walk the whole method
subtree and collect self-qualified attribute assignments (plain and
annotated). -/
def process_method (mbody : List PyStmt) : List String :=
  (walkStmtList mbody).foldl
    (fun acc stmt =>
      match stmt with
      | .assign targets => acc ++ targets.filterMap selfAttrOfTarget
      | .annAssign t =>
        match selfAttrOfTarget t with
        | some a => acc ++ [a]
        | none => acc
      | _ => acc) []

/-- The class-body harvesting loop of `visit_ClassDef` (lines 17-43), folded
over the direct child statements of the class body.  Returns
(methods, variables). -/
def classBodyFacts (body : List PyStmt) : List String × List String :=
  body.foldl
    (fun acc item =>
      match item with
      | .funcDef mname mbody =>
        if isDunder mname then acc
        else (acc.1 ++ [mname], acc.2 ++ process_method mbody)
      | .assign targets =>
        (acc.1,
          acc.2 ++ targets.foldl
            (fun a t =>
              match t with
              | .tname v => a ++ [v]
              | .ttuple elts =>
                a ++ elts.filterMap
                  (fun e => match e with | .tname v => some v | _ => none)
              | _ => a) [])
      | .annAssign (.tname v) => (acc.1, acc.2 ++ [v])
      | _ => acc) ([], [])

/-- `HierarchyExtractor.visit_ClassDef` (lines 14-45) for one class node:
resolve the base expressions first (line 16; an error there propagates out
of the visit), then harvest methods and variables. -/
def visit_ClassDef (node : ClassNode) : Except Unit ClassInfo :=
  match resolveBases node.bases with
  | .error err => .error err
  | .ok bs =>
    let mv := classBodyFacts node.body
    .ok ⟨mv.1, mv.2, bs⟩

/-- The merged `classes` dict of `main`: class name → ClassInfo. -/
abbrev ClassTable := List (String × ClassInfo)

/-- All base-reference entries appearing anywhere in the table (used only to
bound the recursion fuel of `get_all_bases`). -/
def allBaseRefs : ClassTable → List (Option String)
  | [] => []
  | p :: rest => p.2.bases ++ allBaseRefs rest

/-- Total number of base entries in the table. -/
def totalB (classes : ClassTable) : Nat :=
  (allBaseRefs classes).length

/-- The finite set of names that can ever be added to the visited set. -/
def candS (classes : ClassTable) : Finset String :=
  ((allBaseRefs classes).filterMap id).toFinset

/-- Fuel that provably suffices for the recursion of `get_all_bases`
(theorem `get_all_bases_terminates`). -/
def fuelBound (classes : ClassTable) : Nat :=
  (totalB classes + 1) * (totalB classes + 1)

/-- The loop body of `get_all_bases` (cli.py lines 91-95) with the recursive
call inlined and an explicit fuel.  State: the current `bases` list being
iterated and the shared, mutated `visited` set.  Returns the accumulated
result set and the final visited set.  The Python guard
`if base and base not in visited` becomes `b ≠ "" ∧ b ∉ visited` on a
`some` entry (`None` and `''` are falsy). -/
def goBases (classes : ClassTable) : Nat → List (Option String) → List String →
    List String × List String
  | _, [], visited => ([], visited)
  | 0, _ :: _, visited => ([], visited)
  | fuel + 1, ob :: rest, visited =>
    match ob with
    | none => goBases classes fuel rest visited
    | some b =>
      if b ≠ "" ∧ b ∉ visited then
        let inner :=
          match List.lookup b classes with
          | none => (([] : List String), b :: visited)
          | some info => goBases classes fuel info.bases (b :: visited)
        let after := goBases classes fuel rest inner.2
        (b :: (inner.1 ++ after.1), after.2)
      else
        goBases classes fuel rest visited

/-- `get_all_bases` entry at a given fuel: `visited` starts empty; a class
name absent from the table returns the empty set (lines 86-90). -/
def get_all_basesF (classes : ClassTable) (fuel : Nat) (class_name : String) :
    List String × List String :=
  match List.lookup class_name classes with
  | none => ([], [])
  | some info => goBases classes fuel info.bases []

/-- `get_all_bases(class_name, classes)` (cli.py lines 74-96). -/
def get_all_bases (class_name : String) (classes : ClassTable) : List String :=
  (get_all_basesF classes (fuelBound classes) class_name).1

/-- `collect_inherited_elements(class_name, classes)` (lines 98-115):
`classes.get(base, {}).get('methods', set())` means a base that is not a key
contributes nothing. -/
def collect_inherited_elements (class_name : String) (classes : ClassTable) :
    List String × List String :=
  (get_all_bases class_name classes).foldl
    (fun acc base =>
      match List.lookup base classes with
      | some info => (acc.1 ++ info.methods, acc.2 ++ info.vars)
      | none => acc) ([], [])

/-- The focus-class preparation loop of `main` (lines 187-197): methods of
each focus name found in the table, unioned with inherited members when
`include_inherited` is set. -/
def focus_methods (classes : ClassTable) (focus : List String) (inh : Bool) :
    List (String × List String) :=
  focus.filterMap fun c =>
    match List.lookup c classes with
    | some info =>
      some (c, if inh then info.methods ++ (collect_inherited_elements c classes).1
               else info.methods)
    | none => none

/-- Same loop, variables component. -/
def focus_variables (classes : ClassTable) (focus : List String) (inh : Bool) :
    List (String × List String) :=
  focus.filterMap fun c =>
    match List.lookup c classes with
    | some info =>
      some (c, if inh then info.vars ++ (collect_inherited_elements c classes).2
               else info.vars)
    | none => none

/-- The focus names that trigger the line-199 warning
(`Warning: Focus class '...' not found`). -/
def warnings (classes : ClassTable) (focus : List String) : List String :=
  focus.filter fun c => (List.lookup c classes).isNone

/-- `set.intersection(*sets) if sets else set()` (lines 213-214). -/
def interAll : List (List String) → List String
  | [] => []
  | s :: rest => rest.foldl List.inter s

/-- `itertools.combinations(focus_classes, r)` for all `r in range(2, N+1)`
(lines 209-210): every order-preserving sublist of each length from 2 to N. -/
def combosAll (focus : List String) : List (List String) :=
  (List.range' 2 (focus.length - 1)).foldr
    (fun r acc => List.sublistsLen r focus ++ acc) []

/-- The shared-member map of lines 205-218, generic in the per-class member
map: for each combination, intersect the sets of its members that are
present, and record the combination only when the intersection is
non-empty. -/
def sharedMap (focus : List String) (fm : List (String × List String)) :
    List (List String × List String) :=
  (combosAll focus).filterMap fun combo =>
    let sets := combo.filterMap fun c => List.lookup c fm
    let common := interAll sets
    if common.isEmpty then none else some (combo, common)

/-- `all_focus_methods` of `main` (lines 206-218). -/
def all_focus_methods (classes : ClassTable) (focus : List String) (inh : Bool) :
    List (List String × List String) :=
  sharedMap focus (focus_methods classes focus inh)

/-- `all_focus_variables` of `main`. -/
def all_focus_variables (classes : ClassTable) (focus : List String) (inh : Bool) :
    List (List String × List String) :=
  sharedMap focus (focus_variables classes focus inh)

/-- `methods_in_other_classes` for one focus class (lines 224-229): the union
over every *other* focus name that is present in the member map. -/
def othersUnion (c : String) (focus : List String)
    (fm : List (String × List String)) : List String :=
  focus.foldl
    (fun a other =>
      if other ≠ c then
        match List.lookup other fm with
        | some s => a ++ s
        | none => a
      else a) []

/-- The unique-member loop of lines 223-231, generic in the member map.
`focus_methods[class_name]` on a missing key raises `KeyError`, modelled as
`Except.error` carrying the missing name. -/
def uniqueGo (focus_all : List String) (fm : List (String × List String)) :
    List String → Except String (List (String × List String))
  | [] => .ok []
  | c :: rest =>
    match List.lookup c fm with
    | none => .error c
    | some mc =>
      match uniqueGo focus_all fm rest with
      | .error e => .error e
      | .ok tail =>
        .ok ((c, mc.filter fun x => decide (x ∉ othersUnion c focus_all fm)) :: tail)

/-- `unique_methods` of `main` (lines 221-230). -/
def unique_methods (classes : ClassTable) (focus : List String) (inh : Bool) :
    Except String (List (String × List String)) :=
  uniqueGo focus (focus_methods classes focus inh) focus

/-- `unique_variables` of `main` (lines 222-231). -/
def unique_variables (classes : ClassTable) (focus : List String) (inh : Bool) :
    Except String (List (String × List String)) :=
  uniqueGo focus (focus_variables classes focus inh) focus

/-- Helper: a successful `List.lookup` finds an actual entry of the table. -/
theorem lookup_mem {α β : Type} [BEq α] [LawfulBEq α] {a : α} {b : β} :
    ∀ {l : List (α × β)}, List.lookup a l = some b → (a, b) ∈ l := by
  intro l
  induction l with
  | nil => intro h; simp [List.lookup] at h
  | cons p rest ih =>
    intro h
    obtain ⟨p1, p2⟩ := p
    rw [List.lookup] at h
    by_cases hpa : a == p1
    · have ha : a = p1 := eq_of_beq hpa
      subst ha
      simp only [hpa, if_pos] at h
      cases h
      exact List.mem_cons_self _ _
    · simp only [hpa] at h
      exact List.mem_cons_of_mem _ (ih h)

/-- Helper: every base entry of a table entry is in `allBaseRefs`. -/
theorem mem_allBaseRefs {classes : ClassTable} {p : String × ClassInfo}
    (hp : p ∈ classes) {ob : Option String} (hob : ob ∈ p.2.bases) :
    ob ∈ allBaseRefs classes := by
  induction classes with
  | nil => cases hp
  | cons q rest ih =>
    rw [allBaseRefs]
    rcases List.mem_cons.mp hp with hq | hq
    · exact List.mem_append_left _ (hq ▸ hob)
    · exact List.mem_append_right _ (ih hq)

/-- Helper: a `some` base entry of a table entry belongs to `candS`. -/
theorem mem_candS_of_table {classes : ClassTable} {p : String × ClassInfo}
    (hp : p ∈ classes) {b : String} (hb : some b ∈ p.2.bases) :
    b ∈ candS classes := by
  rw [candS, List.mem_toFinset, List.mem_filterMap]
  exact ⟨some b, mem_allBaseRefs hp hb, rfl⟩

/-- Helper: one entry's bases list is no longer than the total base count. -/
theorem bases_length_le {classes : ClassTable} {p : String × ClassInfo}
    (hp : p ∈ classes) : p.2.bases.length ≤ totalB classes := by
  rw [totalB]
  induction classes with
  | nil => cases hp
  | cons q rest ih =>
    rw [allBaseRefs, List.length_append]
    rcases List.mem_cons.mp hp with hq | hq
    · rw [hq]; omega
    · have := ih hq; omega

/-- Helper: the visited set only grows during `goBases`. -/
theorem goBases_visited_mono (classes : ClassTable) :
    ∀ (fuel : Nat) (l : List (Option String)) (v : List String) (x : String),
      x ∈ v → x ∈ (goBases classes fuel l v).2 := by
  intro fuel
  induction fuel with
  | zero =>
    intro l v x hx
    cases l with
    | nil => simpa [goBases] using hx
    | cons ob rest => simpa [goBases] using hx
  | succ f ih =>
    intro l v x hx
    cases l with
    | nil => simpa [goBases] using hx
    | cons ob rest =>
      cases ob with
      | none => simpa [goBases] using ih rest v x hx
      | some b =>
        by_cases hb : b ≠ "" ∧ b ∉ v
        · rw [goBases, if_pos hb]
          cases hlk : List.lookup b classes with
          | none =>
            simp only [hlk]
            exact ih rest (b :: v) x (List.mem_cons_of_mem _ hx)
          | some info =>
            simp only [hlk]
            exact ih rest _ x (ih info.bases (b :: v) x (List.mem_cons_of_mem _ hx))
        · rw [goBases, if_neg hb]
          exact ih rest v x hx

/-- Helper: `goBases` never adds a name to the visited set twice. -/
theorem goBases_visited_nodup (classes : ClassTable) :
    ∀ (fuel : Nat) (l : List (Option String)) (v : List String),
      v.Nodup → (goBases classes fuel l v).2.Nodup := by
  intro fuel
  induction fuel with
  | zero =>
    intro l v hv
    cases l with
    | nil => simpa [goBases] using hv
    | cons ob rest => simpa [goBases] using hv
  | succ f ih =>
    intro l v hv
    cases l with
    | nil => simpa [goBases] using hv
    | cons ob rest =>
      cases ob with
      | none => simpa [goBases] using ih rest v hv
      | some b =>
        by_cases hb : b ≠ "" ∧ b ∉ v
        · rw [goBases, if_pos hb]
          have hbv : (b :: v).Nodup := List.nodup_cons.mpr ⟨hb.2, hv⟩
          cases hlk : List.lookup b classes with
          | none =>
            simp only [hlk]
            exact ih rest (b :: v) hbv
          | some info =>
            simp only [hlk]
            exact ih rest _ (ih info.bases (b :: v) hbv)
        · rw [goBases, if_neg hb]
          exact ih rest v hv

/-- The property every member of a `get_all_bases` result satisfies: it is a
non-empty (truthy) string occurring as a base reference of some table entry. -/
def baseRefOk (classes : ClassTable) (b : String) : Prop :=
  b ≠ "" ∧ ∃ p, p ∈ classes ∧ some b ∈ p.2.bases

/-- Helper: every name collected by `goBases` is a truthy base reference of
some class in the table. -/
theorem goBases_mem_ref (classes : ClassTable) :
    ∀ (fuel : Nat) (l : List (Option String)) (v : List String),
      (∀ b, some b ∈ l → b ≠ "" → baseRefOk classes b) →
      ∀ x ∈ (goBases classes fuel l v).1, baseRefOk classes x := by
  intro fuel
  induction fuel with
  | zero =>
    intro l v hl x hx
    cases l with
    | nil => simp [goBases] at hx
    | cons ob rest => simp [goBases] at hx
  | succ f ih =>
    intro l v hl x hx
    cases l with
    | nil => simp [goBases] at hx
    | cons ob rest =>
      cases ob with
      | none =>
        rw [goBases] at hx
        exact ih rest v (fun b hb => hl b (List.mem_cons_of_mem _ hb)) x hx
      | some b =>
        by_cases hb : b ≠ "" ∧ b ∉ v
        · rw [goBases, if_pos hb] at hx
          cases hlk : List.lookup b classes with
          | none =>
            simp only [hlk] at hx
            rcases List.mem_cons.mp hx with hx | hx
            · exact hx ▸ hl b (List.mem_cons_self _ _) hb.1
            · rcases List.mem_append.mp hx with hx | hx
              · simp at hx
              · exact ih rest (b :: v)
                  (fun b' hb' => hl b' (List.mem_cons_of_mem _ hb')) x hx
          | some info =>
            simp only [hlk] at hx
            have hmem : (b, info) ∈ classes := lookup_mem hlk
            rcases List.mem_cons.mp hx with hx | hx
            · exact hx ▸ hl b (List.mem_cons_self _ _) hb.1
            · rcases List.mem_append.mp hx with hx | hx
              · exact ih info.bases (b :: v)
                  (fun b' hb' hne => ⟨hne, ⟨(b, info), hmem, hb'⟩⟩) x hx
              · exact ih rest _
                  (fun b' hb' => hl b' (List.mem_cons_of_mem _ hb')) x hx
        · rw [goBases, if_neg hb] at hx
          exact ih rest v (fun b' hb' => hl b' (List.mem_cons_of_mem _ hb')) x hx

/-- Arithmetic helper for the fuel-stability proof. -/
theorem stable_arith {k T r L n : Nat} (hk : 1 ≤ k)
    (hm : k * (T+1) + (r + 1) ≤ n) (hL : L ≤ T) :
    (k-1) * (T+1) + L ≤ n - 1 ∧ (k-1) * (T+1) + r ≤ n - 1 := by
  obtain ⟨m, rfl⟩ : ∃ m, k = m + 1 := ⟨k-1, by omega⟩
  have hexp : (m+1)*(T+1) = m*(T+1) + (T+1) := by ring
  rw [hexp] at hm
  simp only [Nat.add_sub_cancel]
  generalize m * (T+1) = A at hm ⊢
  omega

/-- Arithmetic helper: shrinking the card factor keeps the bound. -/
theorem stable_arith2 {k2 km T r m : Nat} (h : k2 ≤ km)
    (h2 : km * (T+1) + r ≤ m) : k2 * (T+1) + r ≤ m :=
  le_trans (Nat.add_le_add_right (Nat.mul_le_mul_right _ h) r) h2

/-- Fuel stability of `goBases`: once the fuel exceeds the measure
`|candS \ visited| * (totalB+1) + |l|`, the result no longer depends on the
fuel.  This is exactly the termination argument of the Python recursion:
each expansion adds a fresh name from the finite set `candS` to `visited`. -/
theorem goBases_stable (classes : ClassTable) :
    ∀ (n : Nat) (l : List (Option String)) (v : List String) (f₁ f₂ : Nat),
      (∀ b, some b ∈ l → b ∈ candS classes) →
      (candS classes \ v.toFinset).card * (totalB classes + 1) + l.length ≤ n →
      n ≤ f₁ → n ≤ f₂ →
      goBases classes f₁ l v = goBases classes f₂ l v := by
  intro n
  induction n using Nat.strong_induction_on with
  | _ n ihn =>
    intro l v f₁ f₂ hl hm h1 h2
    cases l with
    | nil => cases f₁ <;> cases f₂ <;> rfl
    | cons ob rest =>
      simp only [List.length_cons] at hm
      have hn1 : 1 ≤ n := by
        generalize (candS classes \ v.toFinset).card * (totalB classes + 1) = A at hm
        omega
      obtain ⟨g₁, rfl⟩ : ∃ g, f₁ = g + 1 := ⟨f₁ - 1, by omega⟩
      obtain ⟨g₂, rfl⟩ : ∃ g, f₂ = g + 1 := ⟨f₂ - 1, by omega⟩
      have hmeas0 : (candS classes \ v.toFinset).card * (totalB classes + 1)
          + rest.length ≤ n - 1 := by
        generalize (candS classes \ v.toFinset).card * (totalB classes + 1) = A at hm ⊢
        omega
      cases ob with
      | none =>
        simp only [goBases]
        exact ihn (n-1) (by omega) rest v g₁ g₂
          (fun b hb => hl b (List.mem_cons_of_mem _ hb)) hmeas0
          (by omega) (by omega)
      | some b =>
        by_cases hb : b ≠ "" ∧ b ∉ v
        · simp only [goBases, if_pos hb]
          have hbc : b ∈ candS classes := hl b (List.mem_cons_self _ _)
          have hbk : b ∈ candS classes \ v.toFinset :=
            Finset.mem_sdiff.mpr ⟨hbc, fun hx => hb.2 (List.mem_toFinset.mp hx)⟩
          have hk1 : 1 ≤ (candS classes \ v.toFinset).card :=
            Finset.card_pos.mpr ⟨b, hbk⟩
          have hkb : (candS classes \ (b :: v).toFinset).card
              = (candS classes \ v.toFinset).card - 1 := by
            rw [List.toFinset_cons, Finset.sdiff_insert, Finset.card_erase_of_mem hbk]
          have hrest : ∀ b', some b' ∈ rest → b' ∈ candS classes :=
            fun b' hb' => hl b' (List.mem_cons_of_mem _ hb')
          cases hlk : List.lookup b classes with
          | none =>
            simp only [hlk]
            have harith := stable_arith hk1 hm (Nat.zero_le (totalB classes))
            have hrec : goBases classes g₁ rest (b :: v)
                = goBases classes g₂ rest (b :: v) := by
              apply ihn (n-1) (by omega) rest (b :: v) g₁ g₂ hrest
              · rw [hkb]
                exact harith.2
              · omega
              · omega
            rw [hrec]
          | some info =>
            simp only [hlk]
            have hmem : (b, info) ∈ classes := lookup_mem hlk
            have hlen : info.bases.length ≤ totalB classes := bases_length_le hmem
            have harith := stable_arith hk1 hm hlen
            have hinner : goBases classes g₁ info.bases (b :: v)
                = goBases classes g₂ info.bases (b :: v) := by
              apply ihn (n-1) (by omega) info.bases (b :: v) g₁ g₂
                (fun b' hb' => mem_candS_of_table hmem hb')
              · rw [hkb]
                exact harith.1
              · omega
              · omega
            rw [hinner]
            have hcard2 : (candS classes
                \ ((goBases classes g₂ info.bases (b :: v)).2).toFinset).card
                ≤ (candS classes \ v.toFinset).card - 1 := by
              rw [← hkb]
              apply Finset.card_le_card
              apply Finset.sdiff_subset_sdiff (le_refl _)
              intro x hx
              exact List.mem_toFinset.mpr
                (goBases_visited_mono classes g₂ info.bases (b :: v) x
                  (List.mem_toFinset.mp hx))
            have hafter : goBases classes g₁ rest
                  ((goBases classes g₂ info.bases (b :: v)).2)
                = goBases classes g₂ rest
                  ((goBases classes g₂ info.bases (b :: v)).2) := by
              apply ihn (n-1) (by omega) rest _ g₁ g₂ hrest
              · exact stable_arith2 hcard2 harith.2
              · omega
              · omega
            rw [hafter]
        · simp only [goBases, if_neg hb]
          exact ihn (n-1) (by omega) rest v g₁ g₂
            (fun b' hb' => hl b' (List.mem_cons_of_mem _ hb')) hmeas0
            (by omega) (by omega)

/-- Arithmetic helper: the initial measure fits under `fuelBound`. -/
theorem fuelBound_ge {c T len : Nat} (hc : c ≤ T) (hlen : len ≤ T) :
    c * (T + 1) + len ≤ (T + 1) * (T + 1) := by
  have h1 : c * (T+1) ≤ T * (T+1) := Nat.mul_le_mul_right _ hc
  have h2 : (T+1) * (T+1) = T * (T+1) + T + 1 := by ring
  linarith

/-- Helper: `candS` has at most `totalB` elements. -/
theorem candS_card_le (classes : ClassTable) :
    (candS classes).card ≤ totalB classes := by
  rw [candS, totalB]
  exact le_trans (List.toFinset_card_le _) (List.length_filterMap_le _ _)

/-- C5: `get_all_bases` terminates on every class name and every class table,
cyclic base graphs included, and no class name is expanded more than once
within one resolution call.  Termination is expressed as fuel stability: for
any fuel at least `fuelBound classes` the fuel-indexed recursion
`get_all_basesF` computes the same answer as at `fuelBound classes` (so the
unbounded Python recursion reaches this fixed value); the visited set (the
second component), which records exactly the names that were expanded,
is duplicate-free. -/
theorem get_all_bases_terminates (classes : ClassTable) (class_name : String)
    (fuel : Nat) (hf : fuelBound classes ≤ fuel) :
    get_all_basesF classes fuel class_name
      = get_all_basesF classes (fuelBound classes) class_name ∧
    ((get_all_basesF classes fuel class_name).2).Nodup := by
  constructor
  · rw [get_all_basesF, get_all_basesF]
    cases hlk : List.lookup class_name classes with
    | none => rfl
    | some info =>
      apply goBases_stable classes (fuelBound classes) info.bases [] fuel
        (fuelBound classes)
        (fun b hb => mem_candS_of_table (lookup_mem hlk) hb)
      · rw [List.toFinset_nil, Finset.sdiff_empty, fuelBound]
        exact fuelBound_ge (candS_card_le classes)
          (bases_length_le (lookup_mem hlk))
      · exact hf
      · exact le_refl _
  · rw [get_all_basesF]
    cases hlk : List.lookup class_name classes with
    | none => simp
    | some info =>
      exact goBases_visited_nodup classes fuel info.bases [] List.nodup_nil

/-- Cyclic two-class table: `A` bases `B`, `B` bases `A`. -/
def vispyCyc : ClassTable :=
  [("A", ⟨[], [], [some "B"]⟩), ("B", ⟨[], [], [some "A"]⟩)]

/-- Acyclic table: `A` bases `B`, `B` has no bases. -/
def vispyAcyc : ClassTable :=
  [("A", ⟨[], [], [some "B"]⟩), ("B", ⟨[], [], []⟩)]

/-- Table whose only class has an unresolvable dotted base reference. -/
def vispyDot : ClassTable :=
  [("A", ⟨[], [], [some "M.B"]⟩)]

/-- Witness for C5: at the cyclic table, fuel 20 agrees with `fuelBound` and
the visited output is duplicate-free. -/
theorem get_all_bases_terminates_witness :
    get_all_basesF vispyCyc 20 "A"
      = get_all_basesF vispyCyc (fuelBound vispyCyc) "A" ∧
    ((get_all_basesF vispyCyc 20 "A").2).Nodup :=
  get_all_bases_terminates vispyCyc "A" 20 (by decide)

/-- C1 (amended): `get_all_bases(C, table)` always terminates, and its result
excludes `C` itself whenever `C` is not referenced as a base by any class of
the table; when the base graph is cyclic through `C` (e.g. `A` bases `B` and
`B` bases `A`) the result does contain `C`, contrary to the original claim
(see the counterexample). -/
theorem get_all_bases_self_exclusion (class_name : String) (classes : ClassTable)
    (h : ∀ p ∈ classes, some class_name ∉ p.2.bases) :
    class_name ∉ get_all_bases class_name classes := by
  intro hmem
  rw [get_all_bases, get_all_basesF] at hmem
  cases hlk : List.lookup class_name classes with
  | none => rw [hlk] at hmem; simp at hmem
  | some info =>
    rw [hlk] at hmem
    have hr := goBases_mem_ref classes (fuelBound classes) info.bases []
      (fun b hb hne => ⟨hne, ⟨(class_name, info), lookup_mem hlk, hb⟩⟩)
      class_name hmem
    rcases hr with ⟨hne, p, hp, hbase⟩
    exact h p hp hbase

/-- Witness for C1 (amended) at an acyclic table. -/
theorem get_all_bases_self_exclusion_witness :
    "A" ∉ get_all_bases "A" vispyAcyc :=
  get_all_bases_self_exclusion "A" vispyAcyc (by decide)

/-- Counterexample for C1 as stated: with the cyclic table `A` bases `B`,
`B` bases `A`, the result of `get_all_bases("A")` contains `A` itself. -/
theorem get_all_bases_self_cyclic_cex :
    "A" ∈ get_all_bases "A" vispyCyc := by decide

/-- C3 (amended): every string in the result of `get_all_bases` is a truthy
base-reference string of some class of the table — but not necessarily a
*key* of the table (see the counterexample): an unresolved base string is
not expanded further (resolving a non-key name yields the empty set), yet it
*is* added to the ancestor result set. -/
theorem get_all_bases_mem_base_ref (class_name : String) (classes : ClassTable) :
    (∀ x ∈ get_all_bases class_name classes,
        x ≠ "" ∧ ∃ p, p ∈ classes ∧ some x ∈ p.2.bases) ∧
    (List.lookup class_name classes = none →
        get_all_bases class_name classes = []) := by
  constructor
  · intro x hx
    rw [get_all_bases, get_all_basesF] at hx
    cases hlk : List.lookup class_name classes with
    | none => rw [hlk] at hx; simp at hx
    | some info =>
      rw [hlk] at hx
      exact goBases_mem_ref classes (fuelBound classes) info.bases []
        (fun b hb hne => ⟨hne, ⟨(class_name, info), lookup_mem hlk, hb⟩⟩) x hx
  · intro hlk
    rw [get_all_bases, get_all_basesF, hlk]

/-- Witness for C3 (amended): the dotted base string in the result is indeed
a base-reference string of a table entry. -/
theorem get_all_bases_mem_base_ref_witness :
    ("M.B" ∈ get_all_bases "A" vispyDot) ∧
    ("M.B" ≠ "" ∧ ∃ p, p ∈ vispyDot ∧ some "M.B" ∈ p.2.bases) :=
  ⟨by decide, (get_all_bases_mem_base_ref "A" vispyDot).1 "M.B" (by decide)⟩

/-- Counterexample for C3 as stated: the dotted base `"M.B"` is not a key of
the table, yet it appears in the ancestor result set. -/
theorem get_all_bases_unresolved_in_result_cex :
    get_all_bases "A" vispyDot = ["M.B"] ∧
    List.lookup "M.B" vispyDot = none := by
  exact ⟨rfl, rfl⟩

/-- Helper: membership in the accumulating fold of
`collect_inherited_elements`. -/
theorem collectFold_mem (classes : ClassTable) :
    ∀ (l : List String) (acc : List String × List String) (x : String),
      (x ∈ (l.foldl (fun acc base =>
          match List.lookup base classes with
          | some info => (acc.1 ++ info.methods, acc.2 ++ info.vars)
          | none => acc) acc).1 ↔
        x ∈ acc.1 ∨ ∃ b info, b ∈ l ∧ List.lookup b classes = some info ∧
          x ∈ info.methods) ∧
      (x ∈ (l.foldl (fun acc base =>
          match List.lookup base classes with
          | some info => (acc.1 ++ info.methods, acc.2 ++ info.vars)
          | none => acc) acc).2 ↔
        x ∈ acc.2 ∨ ∃ b info, b ∈ l ∧ List.lookup b classes = some info ∧
          x ∈ info.vars) := by
  intro l
  induction l with
  | nil =>
    intro acc x
    simp [List.foldl]
  | cons b0 rest ih =>
    intro acc x
    rw [List.foldl_cons]
    cases hlk : List.lookup b0 classes with
    | none =>
      simp only [hlk]
      constructor
      · rw [(ih acc x).1]
        constructor
        · rintro (hx | ⟨b, info, hbl, hbk, hxi⟩)
          · exact Or.inl hx
          · exact Or.inr ⟨b, info, List.mem_cons_of_mem _ hbl, hbk, hxi⟩
        · rintro (hx | ⟨b, info, hbl, hbk, hxi⟩)
          · exact Or.inl hx
          · rcases List.mem_cons.mp hbl with rfl | hbl
            · rw [hlk] at hbk; cases hbk
            · exact Or.inr ⟨b, info, hbl, hbk, hxi⟩
      · rw [(ih acc x).2]
        constructor
        · rintro (hx | ⟨b, info, hbl, hbk, hxi⟩)
          · exact Or.inl hx
          · exact Or.inr ⟨b, info, List.mem_cons_of_mem _ hbl, hbk, hxi⟩
        · rintro (hx | ⟨b, info, hbl, hbk, hxi⟩)
          · exact Or.inl hx
          · rcases List.mem_cons.mp hbl with rfl | hbl
            · rw [hlk] at hbk; cases hbk
            · exact Or.inr ⟨b, info, hbl, hbk, hxi⟩
    | some i0 =>
      simp only [hlk]
      constructor
      · rw [(ih _ x).1]
        simp only [List.mem_append]
        constructor
        · rintro ((hx | hx) | ⟨b, info, hbl, hbk, hxi⟩)
          · exact Or.inl hx
          · exact Or.inr ⟨b0, i0, List.mem_cons_self _ _, hlk, hx⟩
          · exact Or.inr ⟨b, info, List.mem_cons_of_mem _ hbl, hbk, hxi⟩
        · rintro (hx | ⟨b, info, hbl, hbk, hxi⟩)
          · exact Or.inl (Or.inl hx)
          · rcases List.mem_cons.mp hbl with rfl | hbl
            · rw [hlk] at hbk; cases hbk; exact Or.inl (Or.inr hxi)
            · exact Or.inr ⟨b, info, hbl, hbk, hxi⟩
      · rw [(ih _ x).2]
        simp only [List.mem_append]
        constructor
        · rintro ((hx | hx) | ⟨b, info, hbl, hbk, hxi⟩)
          · exact Or.inl hx
          · exact Or.inr ⟨b0, i0, List.mem_cons_self _ _, hlk, hx⟩
          · exact Or.inr ⟨b, info, List.mem_cons_of_mem _ hbl, hbk, hxi⟩
        · rintro (hx | ⟨b, info, hbl, hbk, hxi⟩)
          · exact Or.inl (Or.inl hx)
          · rcases List.mem_cons.mp hbl with rfl | hbl
            · rw [hlk] at hbk; cases hbk; exact Or.inl (Or.inr hxi)
            · exact Or.inr ⟨b, info, hbl, hbk, hxi⟩

/-- C10: `collect_inherited_elements` is a total function for every class
name and table (modelled without any failure path: the source looks bases up
with `classes.get(base, {}).get(..., set())`), and an ancestor name returned
by `get_all_bases` that is not a key of the table contributes nothing: a
member is collected exactly when it belongs to an ancestor that *is* present
as a key. -/
theorem collect_inherited_total (class_name : String) (classes : ClassTable)
    (x : String) :
    (x ∈ (collect_inherited_elements class_name classes).1 ↔
      ∃ b info, b ∈ get_all_bases class_name classes ∧
        List.lookup b classes = some info ∧ x ∈ info.methods) ∧
    (x ∈ (collect_inherited_elements class_name classes).2 ↔
      ∃ b info, b ∈ get_all_bases class_name classes ∧
        List.lookup b classes = some info ∧ x ∈ info.vars) := by
  rw [collect_inherited_elements]
  have h := collectFold_mem classes (get_all_bases class_name classes) ([], []) x
  constructor
  · rw [h.1]; simp
  · rw [h.2]; simp

/-- Helper: a successful `resolveBases` preserves the number of base
expressions (no entry is dropped). -/
theorem resolveBases_ok_length :
    ∀ {es : List PyExpr} {obs : List (Option String)},
      resolveBases es = .ok obs → obs.length = es.length := by
  intro es
  induction es with
  | nil => intro obs h; cases h; rfl
  | cons e rest ih =>
    intro obs h
    rw [resolveBases] at h
    cases hg : get_name e with
    | error err => rw [hg] at h; cases h
    | ok ob =>
      rw [hg] at h
      cases hr : resolveBases rest with
      | error err => rw [hr] at h; cases h
      | ok obs' =>
        rw [hr] at h
        cases h
        simp [ih hr]

/-- C4 (amended): a base-class expression that is neither a plain identifier
nor a dotted attribute access resolves to the absent value `None`, which is
*retained* in the stored `bases` list (one stored entry per base expression,
nothing dropped), and resolving such a bare expression raises nothing; but a
dotted attribute access whose left side resolves to the absent value raises
a `TypeError` (`None + '.'`) that propagates past the file's extraction. -/
theorem base_resolution_amended (a : String) (n : ClassNode) (info : ClassInfo) :
    get_name PyExpr.otherE = Except.ok none ∧
    get_name (PyExpr.attrib PyExpr.otherE a) = Except.error () ∧
    (visit_ClassDef n = Except.ok info → info.bases.length = n.bases.length) := by
  refine ⟨rfl, rfl, ?_⟩
  intro h
  rw [visit_ClassDef] at h
  cases hr : resolveBases n.bases with
  | error err => rw [hr] at h; cases h
  | ok bs =>
    rw [hr] at h
    cases h
    exact resolveBases_ok_length hr

/-- Witness for C4 (amended), applied at a concrete class node with one
`other`-form base expression. -/
theorem base_resolution_amended_witness :
    get_name (PyExpr.attrib PyExpr.otherE "x") = Except.error () ∧
    (ClassInfo.mk [] [] [none]).bases.length
      = (ClassNode.mk "C" [PyExpr.otherE] []).bases.length :=
  ⟨(base_resolution_amended "x" (ClassNode.mk "C" [PyExpr.otherE] [])
      (ClassInfo.mk [] [] [none])).2.1,
   (base_resolution_amended "x" (ClassNode.mk "C" [PyExpr.otherE] [])
      (ClassInfo.mk [] [] [none])).2.2 rfl⟩

/-- Counterexample for C4 as stated: a class whose single base is an
`other`-form expression stores `[None]` — the absent value is *not* dropped
from `bases` — and a class whose base is a dotted access over an
unresolvable left part makes extraction raise (`Except.error`), so base
resolution does not stay silent. -/
theorem base_resolution_cex :
    visit_ClassDef (ClassNode.mk "C" [PyExpr.otherE] [])
      = Except.ok (ClassInfo.mk [] [] [none]) ∧
    (ClassInfo.mk [] [] [none]).bases ≠ ([] : List (Option String)) ∧
    visit_ClassDef (ClassNode.mk "C" [PyExpr.attrib PyExpr.otherE "x"] [])
      = Except.error () :=
  ⟨rfl, by decide, rfl⟩

/-- C6: a method whose name is dunder (double underscores on both sides)
contributes nothing to a class's facts: prepending such a method to any
class body changes neither `methods` nor `variables` (its body is never
scanned for self-qualified assignments). -/
theorem dunder_method_not_harvested (node : ClassNode) (mname : String)
    (mbody : List PyStmt) (h : isDunder mname = true) :
    visit_ClassDef ⟨node.name, node.bases, PyStmt.funcDef mname mbody :: node.body⟩
      = visit_ClassDef node := by
  rw [visit_ClassDef, visit_ClassDef]
  cases hr : resolveBases node.bases with
  | error err => rfl
  | ok bs =>
    have hstep : classBodyFacts (PyStmt.funcDef mname mbody :: node.body)
        = classBodyFacts node.body := by
      rw [classBodyFacts, classBodyFacts, List.foldl_cons]
      simp [h]
    rw [hstep]

/-- Witness for C6: an `__init__` with a `self.x` assignment adds nothing;
the class facts come only from the class-level assignment and the non-dunder
method `go` (whose nested `self.w` is collected). -/
theorem dunder_method_not_harvested_witness :
    visit_ClassDef ⟨"C", [],
        [PyStmt.funcDef "__init__"
            [PyStmt.assign [PyTarget.tattr (PyExpr.name "self") "x"]],
          PyStmt.assign [PyTarget.tname "z"],
          PyStmt.funcDef "go"
            [PyStmt.otherS [PyStmt.assign [PyTarget.tattr (PyExpr.name "self") "w"]]]]⟩
      = visit_ClassDef ⟨"C", [],
        [PyStmt.assign [PyTarget.tname "z"],
          PyStmt.funcDef "go"
            [PyStmt.otherS [PyStmt.assign [PyTarget.tattr (PyExpr.name "self") "w"]]]]⟩ ∧
    visit_ClassDef ⟨"C", [],
        [PyStmt.assign [PyTarget.tname "z"],
          PyStmt.funcDef "go"
            [PyStmt.otherS [PyStmt.assign [PyTarget.tattr (PyExpr.name "self") "w"]]]]⟩
      = Except.ok (ClassInfo.mk ["go"] ["z", "w"] []) :=
  ⟨dunder_method_not_harvested
      ⟨"C", [],
        [PyStmt.assign [PyTarget.tname "z"],
          PyStmt.funcDef "go"
            [PyStmt.otherS [PyStmt.assign [PyTarget.tattr (PyExpr.name "self") "w"]]]]⟩
      "__init__" [PyStmt.assign [PyTarget.tattr (PyExpr.name "self") "x"]]
      (by decide),
   rfl⟩

/-- Helper: membership in a foldr of appended `sublistsLen` results. -/
theorem foldr_sublistsLen_mem {focus combo : List String} :
    ∀ (rs : List Nat),
      combo ∈ rs.foldr (fun r acc => List.sublistsLen r focus ++ acc) [] →
      ∃ r ∈ rs, combo ∈ List.sublistsLen r focus := by
  intro rs
  induction rs with
  | nil => intro h; cases h
  | cons r rl ih =>
    intro h
    rw [List.foldr_cons] at h
    rcases List.mem_append.mp h with h | h
    · exact ⟨r, List.mem_cons_self _ _, h⟩
    · rcases ih h with ⟨r', hr', hc⟩
      exact ⟨r', List.mem_cons_of_mem _ hr', hc⟩

/-- Helper: every combination produced by `combosAll` has length at least 2
(the `range(2, N+1)` loop). -/
theorem combosAll_length {focus : List String} {combo : List String}
    (h : combo ∈ combosAll focus) : 2 ≤ combo.length := by
  rw [combosAll] at h
  rcases foldr_sublistsLen_mem _ h with ⟨r, hr, hc⟩
  have h2 : 2 ≤ r := (List.mem_range'_1.mp hr).1
  have hlen : combo.length = r := (List.mem_sublistsLen.mp hc).2
  omega

/-- Helper: an element of `interAll sets` belongs to every set in `sets`. -/
theorem interAll_mem {sets : List (List String)} {x : String}
    (hx : x ∈ interAll sets) : ∀ s ∈ sets, x ∈ s := by
  cases sets with
  | nil => simp [interAll] at hx
  | cons s0 rest =>
    rw [interAll] at hx
    have key : ∀ (l : List (List String)) (acc : List String),
        x ∈ l.foldl List.inter acc → x ∈ acc ∧ ∀ s ∈ l, x ∈ s := by
      intro l
      induction l with
      | nil => intro acc h; exact ⟨h, by simp⟩
      | cons t tl ih =>
        intro acc h
        rw [List.foldl_cons] at h
        rcases ih _ h with ⟨hacc, hall⟩
        rcases List.mem_inter_iff.mp hacc with ⟨h1, h2⟩
        refine ⟨h1, ?_⟩
        intro s hs
        rcases List.mem_cons.mp hs with rfl | hs
        · exact h2
        · exact hall s hs
    rcases key rest s0 hx with ⟨h0, hrest⟩
    intro s hs
    rcases List.mem_cons.mp hs with rfl | hs
    · exact h0
    · exact hrest s hs

/-- Helper: soundness of `sharedMap`: every recorded entry is a size-≥2
combination with a non-empty shared set contained in the member set of every
combination member that is present in the map. -/
theorem sharedMap_sound {focus : List String} {fm : List (String × List String)}
    {combo shared : List String}
    (h : (combo, shared) ∈ sharedMap focus fm) :
    2 ≤ combo.length ∧ shared ≠ [] ∧
      ∀ c ∈ combo, ∀ M, List.lookup c fm = some M → ∀ x ∈ shared, x ∈ M := by
  rw [sharedMap] at h
  rcases List.mem_filterMap.mp h with ⟨cb, hcb, hf⟩
  dsimp only at hf
  split at hf
  · cases hf
  · rename_i he
    injection hf with hpair
    injection hpair with h1 h2
    subst cb
    subst shared
    refine ⟨combosAll_length hcb, ?_, ?_⟩
    · intro hnil
      rw [hnil] at he
      exact he rfl
    · intro c hc M hM x hx
      have hMs : M ∈ combo.filterMap fun c => List.lookup c fm :=
        List.mem_filterMap.mpr ⟨c, hc, hM⟩
      exact interAll_mem hx M hMs

/-- Helper: accumulation lemma for the `othersUnion` fold. -/
theorem othersUnion_key (c : String) (fm : List (String × List String))
    (x : String) :
    ∀ (l : List String) (a : List String),
      (x ∈ a ∨ ∃ d ∈ l, d ≠ c ∧ ∃ N, List.lookup d fm = some N ∧ x ∈ N) →
      x ∈ l.foldl (fun a other =>
        if other ≠ c then
          match List.lookup other fm with
          | some s => a ++ s
          | none => a
        else a) a := by
  intro l
  induction l with
  | nil =>
    intro a h
    rcases h with h | ⟨d, hd, _⟩
    · exact h
    · cases hd
  | cons d0 dl ih =>
    intro a h
    rw [List.foldl_cons]
    apply ih
    rcases h with h | ⟨d, hd, hdc, N, hN, hxN⟩
    · left
      by_cases hd0 : d0 ≠ c
      · rw [if_pos hd0]
        cases hlk : List.lookup d0 fm with
        | none => exact h
        | some s => exact List.mem_append_left _ h
      · rw [if_neg hd0]
        exact h
    · rcases List.mem_cons.mp hd with rfl | hd
      · left
        rw [if_pos hdc, hN]
        exact List.mem_append_right _ hxN
      · right
        exact ⟨d, hd, hdc, N, hN, hxN⟩

/-- Helper: anything in some other present focus class's member set lands in
`othersUnion`. -/
theorem othersUnion_mem {c : String} {focus : List String}
    {fm : List (String × List String)} {c' : String} {M : List String}
    {x : String} (hc' : c' ∈ focus) (hne : c' ≠ c)
    (hM : List.lookup c' fm = some M) (hx : x ∈ M) :
    x ∈ othersUnion c focus fm := by
  rw [othersUnion]
  exact othersUnion_key c fm x focus [] (Or.inr ⟨c', hc', hne, M, hM, hx⟩)

/-- Helper: every entry of a successful `uniqueGo` run is the looked-up
member set filtered by non-membership in that class's `othersUnion`. -/
theorem uniqueGo_mem {focus : List String} {fm : List (String × List String)} :
    ∀ {l : List String} {um : List (String × List String)},
      uniqueGo focus fm l = .ok um →
      ∀ {c : String} {U : List String}, (c, U) ∈ um →
        ∃ mc, List.lookup c fm = some mc ∧
          U = mc.filter fun x => decide (x ∉ othersUnion c focus fm) := by
  intro l
  induction l with
  | nil =>
    intro um h c U hm
    cases h
    cases hm
  | cons c0 rest ih =>
    intro um h c U hm
    rw [uniqueGo] at h
    cases hlk : List.lookup c0 fm with
    | none => rw [hlk] at h; cases h
    | some mc0 =>
      rw [hlk] at h
      cases hrec : uniqueGo focus fm rest with
      | error e => rw [hrec] at h; cases h
      | ok tail =>
        rw [hrec] at h
        cases h
        rcases List.mem_cons.mp hm with heq | hm
        · injection heq with h1 h2
          subst h1
          subst h2
          exact ⟨mc0, hlk, rfl⟩
        · exact ih hrec hm

/-- Two-class table sharing method `m` and variable `x`. -/
def vispyTbl2 : ClassTable :=
  [("A", ⟨["m", "a"], ["x", "y"], []⟩), ("B", ⟨["m", "b2"], ["x"], []⟩)]

/-- One-class table (used with focus lists containing an unknown name). -/
def vispyTblA : ClassTable :=
  [("A", ⟨["m"], ["v"], []⟩)]

/-- C7: every entry recorded in the shared-method (resp. shared-variable)
map is keyed by a combination of at least 2 focus names and carries a
non-empty shared set each of whose members belongs to the effective method
(resp. variable) set of every class of the combination that has one, under
the active `include_inherited` setting; no entry is recorded for a
combination whose intersection is empty. -/
theorem shared_members_sound (classes : ClassTable) (focus : List String)
    (inh : Bool) (combo shared : List String) :
    ((combo, shared) ∈ all_focus_methods classes focus inh →
      2 ≤ combo.length ∧ shared ≠ [] ∧
      ∀ c ∈ combo, ∀ M,
        List.lookup c (focus_methods classes focus inh) = some M →
        ∀ x ∈ shared, x ∈ M) ∧
    ((combo, shared) ∈ all_focus_variables classes focus inh →
      2 ≤ combo.length ∧ shared ≠ [] ∧
      ∀ c ∈ combo, ∀ V,
        List.lookup c (focus_variables classes focus inh) = some V →
        ∀ x ∈ shared, x ∈ V) :=
  ⟨fun h => sharedMap_sound h, fun h => sharedMap_sound h⟩

/-- Witness for C7 at a concrete two-class table: the recorded shared method
`m` of the combination `(A, B)` is in `B`'s effective method set. -/
theorem shared_members_sound_witness :
    ((["A", "B"], ["m"]) ∈ all_focus_methods vispyTbl2 ["A", "B"] false) ∧
    "m" ∈ ["m", "b2"] :=
  ⟨by decide,
   ((shared_members_sound vispyTbl2 ["A", "B"] false ["A", "B"] ["m"]).1
       (by decide)).2.2 "B" (by decide) ["m", "b2"] (by decide) "m" (by decide)⟩

/-- C8: when the unique-member loop completes, the unique-method (resp.
unique-variable) set computed for a focus class is disjoint from the
effective method (resp. variable) set of every *other* focus class present
in the member map, under the active `include_inherited` setting. -/
theorem unique_members_disjoint (classes : ClassTable) (focus : List String)
    (inh : Bool) (um : List (String × List String)) (c : String)
    (U : List String) (c' : String) (M : List String) (x : String) :
    (unique_methods classes focus inh = .ok um → (c, U) ∈ um → c' ∈ focus →
      c' ≠ c → List.lookup c' (focus_methods classes focus inh) = some M →
      x ∈ U → x ∉ M) ∧
    (unique_variables classes focus inh = .ok um → (c, U) ∈ um → c' ∈ focus →
      c' ≠ c → List.lookup c' (focus_variables classes focus inh) = some M →
      x ∈ U → x ∉ M) := by
  constructor
  · intro hok hm hc' hne hM hx hxM
    rcases uniqueGo_mem hok hm with ⟨mc, hmc, hU⟩
    rw [hU] at hx
    rcases List.mem_filter.mp hx with ⟨hxmc, hdec⟩
    exact (of_decide_eq_true hdec) (othersUnion_mem hc' hne hM hxM)
  · intro hok hm hc' hne hM hx hxM
    rcases uniqueGo_mem hok hm with ⟨mc, hmc, hU⟩
    rw [hU] at hx
    rcases List.mem_filter.mp hx with ⟨hxmc, hdec⟩
    exact (of_decide_eq_true hdec) (othersUnion_mem hc' hne hM hxM)

/-- Witness for C8 at a concrete two-class table: `A`'s unique method `a`
is not in `B`'s effective method set. -/
theorem unique_members_disjoint_witness :
    unique_methods vispyTbl2 ["A", "B"] false
      = Except.ok [("A", ["a"]), ("B", ["b2"])] ∧
    "a" ∉ ["m", "b2"] :=
  ⟨rfl,
   (unique_members_disjoint vispyTbl2 ["A", "B"] false
       [("A", ["a"]), ("B", ["b2"])] "A" ["a"] "B" ["m", "b2"] "a").1
     rfl (by decide) (by decide) (by decide) rfl (by decide)⟩

/-- C2 (code bug): with one valid focus class `A` and one unknown focus name
`Missing`, the run does warn and does build the member maps for the valid
name only — but the unique-member loop of `main` (line 230) then evaluates
`focus_methods['Missing']`, which raises `KeyError`, so the run *does* raise
past the warning, contrary to the claim and to the intent evident in the
guards elsewhere (`if c in focus_methods`, warning-and-continue). -/
theorem focus_missing_keyerror :
    warnings vispyTbl2 ["A", "Missing"] = ["Missing"] ∧
    focus_methods vispyTbl2 ["A", "Missing"] false = [("A", ["m", "a"])] ∧
    unique_methods vispyTbl2 ["A", "Missing"] false = Except.error "Missing" ∧
    unique_variables vispyTbl2 ["A", "Missing"] false = Except.error "Missing" :=
  ⟨rfl, rfl, rfl, rfl⟩

/-- C9 (amended): with fewer than 2 names in the focus *list* the combination
loop records no shared entries, and a single valid focus class that is the
only focus name receives unique-method and unique-variable entries equal to
its own full effective sets.  (The original claim's "fewer than 2 *valid*
focus classes" fails: a combination pairing one valid and one unknown name
can still record a shared entry — see the counterexample.) -/
theorem small_focus_amended (classes : ClassTable) (focus : List String)
    (inh : Bool) :
    (focus.length < 2 →
      all_focus_methods classes focus inh = [] ∧
      all_focus_variables classes focus inh = []) ∧
    (∀ c M, focus = [c] →
      List.lookup c (focus_methods classes focus inh) = some M →
      unique_methods classes focus inh = Except.ok [(c, M)]) ∧
    (∀ c V, focus = [c] →
      List.lookup c (focus_variables classes focus inh) = some V →
      unique_variables classes focus inh = Except.ok [(c, V)]) := by
  refine ⟨?_, ?_, ?_⟩
  · intro hlen
    have hr : focus.length - 1 = 0 := by omega
    constructor
    · rw [all_focus_methods, sharedMap, combosAll, hr]
      rfl
    · rw [all_focus_variables, sharedMap, combosAll, hr]
      rfl
  · intro c M hfoc hM
    subst hfoc
    rw [unique_methods, uniqueGo, hM]
    rw [uniqueGo]
    have hothers : othersUnion c [c] (focus_methods classes [c] inh) = [] := by
      rw [othersUnion, List.foldl_cons, if_neg (fun h => h rfl), List.foldl_nil]
    rw [hothers]
    have hfilt : (M.filter fun x => decide (x ∉ ([] : List String))) = M :=
      List.filter_eq_self.mpr fun a ha => by simp
    dsimp only
    rw [hfilt]
  · intro c V hfoc hV
    subst hfoc
    rw [unique_variables, uniqueGo, hV]
    rw [uniqueGo]
    have hothers : othersUnion c [c] (focus_variables classes [c] inh) = [] := by
      rw [othersUnion, List.foldl_cons, if_neg (fun h => h rfl), List.foldl_nil]
    rw [hothers]
    have hfilt : (V.filter fun x => decide (x ∉ ([] : List String))) = V :=
      List.filter_eq_self.mpr fun a ha => by simp
    dsimp only
    rw [hfilt]

/-- Witness for C9 (amended) at a one-class table with a singleton focus
list: no shared entries, and the unique sets equal the class's own sets. -/
theorem small_focus_amended_witness :
    all_focus_methods vispyTblA ["A"] false = [] ∧
    unique_methods vispyTblA ["A"] false = Except.ok [("A", ["m"])] ∧
    unique_variables vispyTblA ["A"] false = Except.ok [("A", ["v"])] :=
  ⟨((small_focus_amended vispyTblA ["A"] false).1 (by decide)).1,
   (small_focus_amended vispyTblA ["A"] false).2.1 "A" ["m"] rfl rfl,
   (small_focus_amended vispyTblA ["A"] false).2.2 "A" ["v"] rfl rfl⟩

/-- Counterexample for C9 as stated: the focus list `["A", "Bogus"]` has only
ONE valid focus class (`Bogus` is warned about and absent from the member
maps), yet the combination loop records a shared entry — the combination
`("A", "Bogus")` with `A`'s whole method set — so the shared maps are not
empty with fewer than 2 valid focus classes. -/
theorem small_focus_cex :
    warnings vispyTblA ["A", "Bogus"] = ["Bogus"] ∧
    (focus_methods vispyTblA ["A", "Bogus"] false).length = 1 ∧
    all_focus_methods vispyTblA ["A", "Bogus"] false
      = [(["A", "Bogus"], ["m"])] :=
  ⟨rfl, rfl, rfl⟩
